import Mathlib

/-!
Verification of the medical 2D-to-3D reconstruction pipeline
(`server/medical_3d_converter.py` and `server/api_server.py`).

The Python source is shallowly embedded below.  Numeric pixel data,
slice positions and rescale coefficients are modelled as rationals,
the exact arithmetic underlying the numpy float computations; STL
bytes are natural numbers below 256; the float32 bit-level cast is a
parameter of the statements that need it.  Stateful code (the
`Medical3DConverter` pipeline object) is embedded as explicit state
passing with `Except` for Python exceptions.
-/

namespace Medical3D

/-! ## DICOM series reading (`MedicalImageReader`)

A file in the scanned directory is modelled by the outcome of
`pydicom.dcmread` on it: `none` when the file cannot be decoded
(the bare `except` in `_read_single_dicom` turns any failure into a
skipped file), and otherwise a record of the attributes the reader
consumes. -/

/-- Decoded DICOM attributes used by `read_dicom_series`:
`ipp` is the z coordinate `ImagePositionPatient[2]` when the attribute
is present, `pixels` the 2D `pixel_array`, and the remaining fields the
optional spacing and rescale metadata.  `RescaleSlope` and
`RescaleIntercept` are separate optional attributes: the code guards
the rescale only on `hasattr(ds, 'RescaleSlope')` and then reads
`ds.RescaleIntercept` unguarded, so a slope without an intercept
raises `AttributeError`. -/
structure DicomData where
  ipp : Option ℚ
  pixels : List (List ℚ)
  sliceThickness : Option ℚ
  pixelSpacing : Option (ℚ × ℚ)
  rescaleSlope : Option ℚ
  rescaleIntercept : Option ℚ
deriving DecidableEq

/-- A slice as produced by `_read_single_dicom`: the sort key
(the physical position, defaulted to 0 when `ImagePositionPatient`
is absent) paired with the dataset. -/
abbrev DicomSlice := ℚ × DicomData

/-- Embeds `_read_single_dicom`: a file that fails to decode yields `None`;
otherwise `(pos, pixel_array, ds)` with
`pos = ImagePositionPatient[2] if present else 0`. -/
def readSingleDicom (file : Option DicomData) : Option DicomSlice :=
  file.map (fun d => (d.ipp.getD 0, d))

/-- Insert a slice into a sorted list, before the first element whose
key is not smaller.  Equal keys keep the inserted (earlier) element in
front, which is exactly the stability guarantee of Python `list.sort`. -/
def insertKeyed (x : DicomSlice) : List DicomSlice → List DicomSlice
  | [] => [x]
  | y :: ys => if x.1 ≤ y.1 then x :: y :: ys else y :: insertKeyed x ys

/-- Embeds `valid.sort(key=lambda x: x[0])`: a stable sort by slice position. -/
def sortByPos : List DicomSlice → List DicomSlice
  | [] => []
  | x :: xs => insertKeyed x (sortByPos xs)

/-- Python list slicing `l[::k]`, structurally recursive on a fuel
bounded by the list length: keep the head, drop the next `k - 1`
elements, repeat. -/
def sliceStrideFuel : ℕ → List α → ℕ → List α
  | 0, _, _ => []
  | _ + 1, [], _ => []
  | fuel + 1, x :: xs, k => x :: sliceStrideFuel fuel (xs.drop (k - 1)) k

/-- Python list slicing `l[::k]`: keep indices 0, k, 2k, … -/
def sliceStride (l : List α) (k : ℕ) : List α :=
  sliceStrideFuel l.length l k

/-- The decoded, position-sorted slice list of `read_dicom_series`
(its `valid` after the sort). -/
def sortedValid (files : List (Option DicomData)) : List DicomSlice :=
  sortByPos (files.filterMap readSingleDicom)

/-- The slice list after the subsampling step: when more than
`cap` slices are present, keep every `(len // cap)`-th slice. -/
def processedSlices (files : List (Option DicomData)) (cap : ℕ) : List DicomSlice :=
  let v := sortedValid files
  if cap < v.length then sliceStride v (v.length / cap) else v

/-- The `spacing` extraction from the first slice: `SliceThickness` and
`PixelSpacing` when present, 1.0 otherwise. -/
def spacingOf (d : DicomData) : List ℚ :=
  [d.sliceThickness.getD 1,
   (d.pixelSpacing.map Prod.fst).getD 1,
   (d.pixelSpacing.map Prod.snd).getD 1]

/-- The shape requirement of `np.stack`: every pixel array must have
the shape of the first one.  Numpy pixel arrays are rectangular, so
two of them share a shape exactly when their row-length profiles
(`map List.length`) agree. -/
def stackable : List DicomSlice → Bool
  | [] => true
  | d0 :: rest =>
    (d0 :: rest).all (fun s => s.2.pixels.map List.length == d0.2.pixels.map List.length)

/-- The failing rescale-metadata combination: `RescaleSlope` present
without `RescaleIntercept`, on which line 119 raises `AttributeError`. -/
def slopeNoIntercept (d : DicomData) : Bool :=
  d.rescaleSlope.isSome && d.rescaleIntercept.isNone

/-- Stacking and rescaling: `np.stack` of the pixel arrays (raising
`ValueError` when the kept slices' shapes differ), then the rescale
driven by `ds = valid[0][2]`, the metadata of the first slice of the
processed list: guarded on `hasattr(ds, 'RescaleSlope')`, and reading
`ds.RescaleIntercept` unguarded (`AttributeError` when absent). -/
def stackAndScale (processed : List DicomSlice) : Except String (List (List (List ℚ)) × List ℚ) :=
  match processed with
  | [] => Except.error "No valid DICOM files"
  | d0 :: rest =>
    if stackable (d0 :: rest) then
      let volume := (d0 :: rest).map (fun s => s.2.pixels)
      match d0.2.rescaleSlope with
      | none => Except.ok (volume, spacingOf d0.2)
      | some sl =>
        match d0.2.rescaleIntercept with
        | none => Except.error "AttributeError: RescaleIntercept"
        | some t =>
          Except.ok (volume.map (List.map (List.map (fun x => x * sl + t))), spacingOf d0.2)
    else Except.error "ValueError: all input arrays must have the same shape"

/-- Embeds `read_dicom_series`: decode all files in parallel, drop failures,
sort by position, fail when nothing decoded, subsample past the slice
cap, stack (failing on a shape mismatch), and rescale by the first
slice's metadata (failing on a slope without intercept).  `cap = 0`
with a nonempty slice list reproduces Python's `ZeroDivisionError`
from `len(valid) // max_slices`. -/
def readDicomSeries (files : List (Option DicomData)) (cap : ℕ) :
    Except String (List (List (List ℚ)) × List ℚ) :=
  let valid := sortedValid files
  if valid.isEmpty then Except.error "No valid DICOM files"
  else if cap = 0 then Except.error "ZeroDivisionError"
  else stackAndScale (processedSlices files cap)

/-! ### Sorting lemmas -/

theorem mem_insertKeyed {b x : DicomSlice} {l : List DicomSlice} :
    b ∈ insertKeyed x l ↔ b = x ∨ b ∈ l := by
  induction l with
  | nil => simp [insertKeyed]
  | cons z zs ih =>
    rw [insertKeyed]
    split
    · simp
    · simp only [List.mem_cons, ih]
      tauto

theorem insertKeyed_sorted {l : List DicomSlice} (x : DicomSlice)
    (h : l.Sorted (fun a b => a.1 ≤ b.1)) :
    (insertKeyed x l).Sorted (fun a b => a.1 ≤ b.1) := by
  induction l with
  | nil => simp [insertKeyed]
  | cons y ys ih =>
    rw [List.sorted_cons] at h
    by_cases hxy : x.1 ≤ y.1
    · rw [insertKeyed, if_pos hxy]
      refine List.sorted_cons.mpr ⟨?_, List.sorted_cons.mpr h⟩
      intro b hb
      rcases List.mem_cons.mp hb with rfl | hb
      · exact hxy
      · exact le_trans hxy (h.1 b hb)
    · rw [insertKeyed, if_neg hxy]
      refine List.sorted_cons.mpr ⟨?_, ih h.2⟩
      intro b hb
      rcases mem_insertKeyed.mp hb with rfl | hb2
      · exact le_of_not_le hxy
      · exact h.1 b hb2

theorem sortByPos_sorted (l : List DicomSlice) :
    (sortByPos l).Sorted (fun a b => a.1 ≤ b.1) := by
  induction l with
  | nil => simp [sortByPos]
  | cons x xs ih => exact insertKeyed_sorted x ih

theorem insertKeyed_perm (x : DicomSlice) (l : List DicomSlice) :
    List.Perm (insertKeyed x l) (x :: l) := by
  induction l with
  | nil => simp [insertKeyed]
  | cons y ys ih =>
    rw [insertKeyed]
    split
    · exact List.Perm.refl _
    · exact (List.Perm.cons y ih).trans (List.Perm.swap x y ys)

theorem sortByPos_perm (l : List DicomSlice) : List.Perm (sortByPos l) l := by
  induction l with
  | nil => simp [sortByPos]
  | cons x xs ih => exact (insertKeyed_perm x (sortByPos xs)).trans (List.Perm.cons x ih)

/-- Stability of the sort: the subsequence of slices with any fixed
key is unchanged by sorting. -/
theorem filter_insertKeyed (x : DicomSlice) (l : List DicomSlice) (k : ℚ) :
    (insertKeyed x l).filter (fun y => decide (y.1 = k)) =
      if x.1 = k then x :: l.filter (fun y => decide (y.1 = k))
      else l.filter (fun y => decide (y.1 = k)) := by
  induction l with
  | nil => by_cases hxk : x.1 = k <;> simp [insertKeyed, List.filter_cons, hxk]
  | cons y ys ih =>
    rw [insertKeyed]
    by_cases hxy : x.1 ≤ y.1
    · rw [if_pos hxy]
      by_cases hxk : x.1 = k <;> simp [List.filter_cons, hxk]
    · rw [if_neg hxy]
      have hylt : y.1 < x.1 := lt_of_not_le hxy
      by_cases hxk : x.1 = k
      · have hyk : ¬ (y.1 = k) := by
          intro h; rw [h] at hylt; exact absurd hxk (ne_of_gt hylt)
        simp [List.filter_cons, hxk, hyk, ih]
      · by_cases hyk : y.1 = k <;> simp [List.filter_cons, hxk, hyk, ih]

theorem sortByPos_filter_key (l : List DicomSlice) (k : ℚ) :
    (sortByPos l).filter (fun y => decide (y.1 = k)) =
      l.filter (fun y => decide (y.1 = k)) := by
  induction l with
  | nil => rfl
  | cons x xs ih =>
    rw [sortByPos, filter_insertKeyed]
    by_cases hxk : x.1 = k <;> simp [List.filter_cons, hxk, ih]

/-! ### Stride lemmas -/

theorem sliceStrideFuel_sublist :
    ∀ (fuel : ℕ) (l : List α) (k : ℕ), List.Sublist (sliceStrideFuel fuel l k) l := by
  intro fuel
  induction fuel with
  | zero => intro l k; exact List.nil_sublist l
  | succ f ih =>
    intro l k
    cases l with
    | nil => exact List.Sublist.refl []
    | cons x xs =>
      rw [sliceStrideFuel]
      exact List.Sublist.cons₂ x ((ih _ k).trans (List.drop_sublist _ _))

theorem sliceStride_sublist (l : List α) (k : ℕ) : List.Sublist (sliceStride l k) l :=
  sliceStrideFuel_sublist l.length l k

theorem sliceStride_ne_nil (x : α) (xs : List α) (k : ℕ) :
    sliceStride (x :: xs) k ≠ [] := by
  rw [sliceStride, List.length_cons, sliceStrideFuel]
  exact List.cons_ne_nil _ _

theorem sliceStrideFuel_length :
    ∀ (fuel : ℕ) (l : List α) (k : ℕ), 1 ≤ k → l.length ≤ fuel →
      (sliceStrideFuel fuel l k).length = (l.length + k - 1) / k := by
  intro fuel
  induction fuel with
  | zero =>
    intro l k hk hf
    have hl : l = [] := List.length_eq_zero.mp (Nat.le_zero.mp hf)
    subst hl
    simp only [sliceStrideFuel, List.length_nil, Nat.zero_add]
    exact (Nat.div_eq_of_lt (by omega)).symm
  | succ f ih =>
    intro l k hk hf
    cases l with
    | nil =>
      simp only [sliceStrideFuel, List.length_nil, Nat.zero_add]
      exact (Nat.div_eq_of_lt (by omega)).symm
    | cons x xs =>
      rw [sliceStrideFuel]
      simp only [List.length_cons]
      rw [List.length_cons] at hf
      have hf2 : (xs.drop (k - 1)).length ≤ f := by
        rw [List.length_drop]
        omega
      rw [ih (xs.drop (k - 1)) k hk hf2, List.length_drop]
      have hxk : xs.length + 1 + k - 1 = xs.length + k := by omega
      rw [hxk, Nat.add_div_right _ (by omega)]
      rcases le_or_lt (k - 1) xs.length with h | h
      · have h1 : xs.length - (k - 1) + k - 1 = xs.length := by omega
        rw [h1]
      · have h1 : xs.length - (k - 1) + k - 1 = k - 1 := by omega
        rw [h1, Nat.div_eq_of_lt (by omega), Nat.div_eq_of_lt (by omega)]

theorem sliceStride_length (l : List α) (k : ℕ) (hk : 1 ≤ k) :
    (sliceStride l k).length = (l.length + k - 1) / k :=
  sliceStrideFuel_length l.length l k hk (Nat.le_refl _)

/-! ## 3D grids and scipy connectivity (`OrganSegmentation`)

`scipy.ndimage.label` with its default structuring element
`generate_binary_structure(3, 1)` joins voxels that share a face
(6-connectivity).  Components are computed below by an explicit
breadth-first closure, and labels are assigned by the raster scan
order of each component's first voxel, which is how `ndimage.label`
numbers features consecutively from 1. -/

/-- A voxel index `(z, y, x)`. -/
abbrev Pos3 := ℕ × ℕ × ℕ

/-- Membership in an array of shape `dims`. -/
def inBounds3 (dims p : Pos3) : Bool :=
  decide (p.1 < dims.1 ∧ p.2.1 < dims.2.1 ∧ p.2.2 < dims.2.2)

/-- All voxel indices of a `dims`-shaped array in raster (C) order. -/
def allPos3 (dims : Pos3) : List Pos3 :=
  (List.range dims.1).flatMap (fun i =>
    (List.range dims.2.1).flatMap (fun j =>
      (List.range dims.2.2).map (fun k => (i, j, k))))

/-- Face adjacency of voxels: the two indices differ by one in exactly
one coordinate.  This is the 6-neighbourhood generated by
`ndimage.generate_binary_structure(3, 1)`, the default structure of
`ndimage.label`. -/
def adj6 (p q : Pos3) : Bool :=
  decide ((p.1 = q.1 ∧ p.2.1 = q.2.1 ∧ (p.2.2 = q.2.2 + 1 ∨ q.2.2 = p.2.2 + 1)) ∨
          (p.1 = q.1 ∧ p.2.2 = q.2.2 ∧ (p.2.1 = q.2.1 + 1 ∨ q.2.1 = p.2.1 + 1)) ∨
          (p.2.1 = q.2.1 ∧ p.2.2 = q.2.2 ∧ (p.1 = q.1 + 1 ∨ q.1 = p.1 + 1)))

/-- Full 26-neighbourhood: distinct voxels whose coordinates each
differ by at most one.  (Only used to state what the spec asks of
`fast_region_growing`; the code uses `adj6`.) -/
def adj26 (p q : Pos3) : Bool :=
  decide (p ≠ q ∧
    (p.1 ≤ q.1 + 1 ∧ q.1 ≤ p.1 + 1) ∧
    (p.2.1 ≤ q.2.1 + 1 ∧ q.2.1 ≤ p.2.1 + 1) ∧
    (p.2.2 ≤ q.2.2 + 1 ∧ q.2.2 ≤ p.2.2 + 1))

/-- One closure step of the component computation: every in-bounds
foreground voxel already collected or face-adjacent to a collected
voxel. -/
def growStep (ok : Pos3 → Bool) (dims : Pos3) (cur : List Pos3) : List Pos3 :=
  (allPos3 dims).filter (fun q => ok q && (cur.contains q || cur.any (fun p => adj6 p q)))

/-- The starting set of the component computation: the seed itself,
when it is an in-bounds foreground voxel. -/
def seedStart (ok : Pos3 → Bool) (dims : Pos3) (seed : Pos3) : List Pos3 :=
  (allPos3 dims).filter (fun q => ok q && decide (q = seed))

/-- The connected component of `seed` inside the foreground `ok`:
iterate the closure step once per voxel of the array, which reaches a
fixed point.  Empty when `seed` is out of bounds or background. -/
def bfsFrom (ok : Pos3 → Bool) (dims : Pos3) (seed : Pos3) : List Pos3 :=
  (growStep ok dims)^[(allPos3 dims).length] (seedStart ok dims seed)

/-- Specification `Reaches ok dims seed p`: there is a chain of face-adjacent
in-bounds foreground voxels from `seed` to `p`.  This is the
specification of "`p` lies in the connected component of `seed`". -/
inductive Reaches (ok : Pos3 → Bool) (dims : Pos3) (seed : Pos3) : Pos3 → Prop
  | base : inBounds3 dims seed = true → ok seed = true → Reaches ok dims seed seed
  | step {q r : Pos3} : Reaches ok dims seed q → inBounds3 dims r = true →
      ok r = true → adj6 q r = true → Reaches ok dims seed r

theorem mem_allPos3 {dims p : Pos3} : p ∈ allPos3 dims ↔ inBounds3 dims p = true := by
  obtain ⟨i, j, k⟩ := p
  simp only [allPos3, List.mem_flatMap, List.mem_map, List.mem_range, inBounds3,
    decide_eq_true_eq]
  constructor
  · rintro ⟨a, ha, b, hb, c, hc, h⟩
    cases h
    exact ⟨ha, hb, hc⟩
  · rintro ⟨h1, h2, h3⟩
    exact ⟨i, h1, j, h2, k, h3, rfl⟩

theorem nodup_allPos3 (dims : Pos3) : (allPos3 dims).Nodup := by
  have hinj : ∀ i j : ℕ, Function.Injective (fun k : ℕ => ((i, j, k) : Pos3)) := by
    intro i j a b h
    simpa using congrArg (fun t : Pos3 => t.2.2) h
  refine List.nodup_flatMap.mpr ⟨fun i _ => ?_, ?_⟩
  · refine List.nodup_flatMap.mpr ⟨fun j _ => (List.nodup_range _).map (hinj i j), ?_⟩
    refine List.Pairwise.imp ?_ (List.nodup_range dims.2.1)
    intro a b hab
    simp only [Function.onFun, List.disjoint_left, List.mem_map, List.mem_range]
    rintro x ⟨c, _, rfl⟩ ⟨d, _, hx⟩
    have h2 : b = a := by simpa using congrArg (fun t : Pos3 => t.2.1) hx
    exact hab h2.symm
  · refine List.Pairwise.imp ?_ (List.nodup_range dims.1)
    intro a b hab
    simp only [Function.onFun, List.disjoint_left, List.mem_flatMap, List.mem_map,
      List.mem_range]
    rintro x ⟨c, _, e, _, rfl⟩ ⟨c2, _, e2, _, hx⟩
    have h2 : b = a := by simpa using congrArg (fun t : Pos3 => t.1) hx
    exact hab h2.symm

theorem adj6_symm (p q : Pos3) : adj6 p q = adj6 q p := by
  simp only [adj6, decide_eq_decide]
  tauto

/-- Every voxel of a closure iterate is an in-bounds foreground voxel. -/
theorem iterate_growStep_ok {ok : Pos3 → Bool} {dims : Pos3} {start : List Pos3}
    (hstart : ∀ p ∈ start, p ∈ allPos3 dims ∧ ok p = true) :
    ∀ n, ∀ p ∈ (growStep ok dims)^[n] start, p ∈ allPos3 dims ∧ ok p = true := by
  intro n
  cases n with
  | zero => exact hstart
  | succ m =>
    intro p hp
    rw [Function.iterate_succ_apply'] at hp
    obtain ⟨hmem, hpred⟩ := List.mem_filter.mp hp
    exact ⟨hmem, (Bool.and_eq_true _ _ |>.mp hpred).1⟩

theorem subset_growStep {ok : Pos3 → Bool} {dims : Pos3} {cur : List Pos3}
    (h : ∀ p ∈ cur, p ∈ allPos3 dims ∧ ok p = true) :
    ∀ p ∈ cur, p ∈ growStep ok dims cur := by
  intro p hp
  refine List.mem_filter.mpr ⟨(h p hp).1, ?_⟩
  rw [Bool.and_eq_true, Bool.or_eq_true]
  exact ⟨(h p hp).2, Or.inl (List.elem_iff.mpr hp)⟩

theorem iterate_growStep_mono {ok : Pos3 → Bool} {dims : Pos3} {start : List Pos3}
    (hstart : ∀ p ∈ start, p ∈ allPos3 dims ∧ ok p = true) :
    ∀ {m n : ℕ}, m ≤ n →
      ∀ p ∈ (growStep ok dims)^[m] start, p ∈ (growStep ok dims)^[n] start := by
  intro m n hmn
  induction n with
  | zero => cases Nat.le_zero.mp hmn; exact fun p hp => hp
  | succ k ih =>
    rcases Nat.lt_or_ge m (k + 1) with h | h
    · intro p hp
      rw [Function.iterate_succ_apply']
      exact subset_growStep (iterate_growStep_ok hstart k) p (ih (Nat.lt_succ_iff.mp h) p hp)
    · have : m = k + 1 := Nat.le_antisymm hmn h
      subst this
      exact fun p hp => hp

theorem seedStart_ok {ok : Pos3 → Bool} {dims seed : Pos3} :
    ∀ p ∈ seedStart ok dims seed, p ∈ allPos3 dims ∧ ok p = true := by
  intro p hp
  obtain ⟨hmem, hpred⟩ := List.mem_filter.mp hp
  exact ⟨hmem, (Bool.and_eq_true _ _ |>.mp hpred).1⟩

theorem mem_seedStart {ok : Pos3 → Bool} {dims seed p : Pos3} :
    p ∈ seedStart ok dims seed ↔
      p = seed ∧ inBounds3 dims p = true ∧ ok p = true := by
  simp only [seedStart, List.mem_filter, mem_allPos3, Bool.and_eq_true, decide_eq_true_eq]
  tauto

/-- Soundness of the closure iteration: everything collected is
reachable from the seed. -/
theorem iterate_growStep_sound {ok : Pos3 → Bool} {dims seed : Pos3} :
    ∀ n, ∀ p ∈ (growStep ok dims)^[n] (seedStart ok dims seed),
      Reaches ok dims seed p := by
  intro n
  induction n with
  | zero =>
    intro p hp
    obtain ⟨rfl, hb, hok⟩ := mem_seedStart.mp hp
    exact Reaches.base hb hok
  | succ m ih =>
    intro p hp
    rw [Function.iterate_succ_apply'] at hp
    obtain ⟨hmem, hpred⟩ := List.mem_filter.mp hp
    rw [Bool.and_eq_true, Bool.or_eq_true] at hpred
    obtain ⟨hok, hin | hadj⟩ := hpred
    · exact ih p (List.elem_iff.mp hin)
    · obtain ⟨q, hq, hqp⟩ := List.any_eq_true.mp hadj
      exact Reaches.step (ih q hq) (mem_allPos3.mp hmem) hok hqp

/-- Every reachable voxel is collected by some iterate. -/
theorem reaches_mem_iterate {ok : Pos3 → Bool} {dims seed p : Pos3}
    (h : Reaches ok dims seed p) :
    ∃ n, p ∈ (growStep ok dims)^[n] (seedStart ok dims seed) := by
  induction h with
  | base hb hok =>
    exact ⟨0, mem_seedStart.mpr ⟨rfl, hb, hok⟩⟩
  | step hr hb hok hadj ih =>
    obtain ⟨n, hn⟩ := ih
    refine ⟨n + 1, ?_⟩
    rw [Function.iterate_succ_apply']
    refine List.mem_filter.mpr ⟨mem_allPos3.mpr hb, ?_⟩
    rw [Bool.and_eq_true, Bool.or_eq_true]
    exact ⟨hok, Or.inr (List.any_eq_true.mpr ⟨_, hn, hadj⟩)⟩

/-- The closure step only looks at the membership of its input. -/
theorem growStep_congr {ok : Pos3 → Bool} {dims : Pos3} {cur cur2 : List Pos3}
    (h : ∀ x, x ∈ cur ↔ x ∈ cur2) :
    growStep ok dims cur = growStep ok dims cur2 := by
  refine List.filter_congr ?_
  intro q _
  have hc : cur.contains q = cur2.contains q := by
    rw [Bool.eq_iff_iff, List.elem_iff, List.elem_iff]
    exact h q
  have ha : cur.any (fun p => adj6 p q) = cur2.any (fun p => adj6 p q) := by
    rw [Bool.eq_iff_iff, List.any_eq_true, List.any_eq_true]
    constructor
    · rintro ⟨x, hx, hxq⟩; exact ⟨x, (h x).mp hx, hxq⟩
    · rintro ⟨x, hx, hxq⟩; exact ⟨x, (h x).mpr hx, hxq⟩
  rw [hc, ha]

theorem iterate_growStep_sublist {ok : Pos3 → Bool} {dims seed : Pos3} :
    ∀ n, List.Sublist ((growStep ok dims)^[n] (seedStart ok dims seed)) (allPos3 dims) := by
  intro n
  cases n with
  | zero => exact List.filter_sublist _
  | succ m =>
    rw [Function.iterate_succ_apply']
    exact List.filter_sublist _

theorem iterate_growStep_nodup {ok : Pos3 → Bool} {dims seed : Pos3} (n : ℕ) :
    ((growStep ok dims)^[n] (seedStart ok dims seed)).Nodup :=
  (nodup_allPos3 dims).sublist (iterate_growStep_sublist n)

theorem iterate_growStep_length_le {ok : Pos3 → Bool} {dims seed : Pos3} (n : ℕ) :
    ((growStep ok dims)^[n] (seedStart ok dims seed)).length ≤ (allPos3 dims).length :=
  (iterate_growStep_sublist n).length_le

theorem iterate_growStep_length_mono {ok : Pos3 → Bool} {dims seed : Pos3} {m n : ℕ}
    (hmn : m ≤ n) :
    ((growStep ok dims)^[m] (seedStart ok dims seed)).length ≤
      ((growStep ok dims)^[n] (seedStart ok dims seed)).length :=
  List.Subperm.length_le
    (List.subperm_of_subset (iterate_growStep_nodup m)
      (fun _ hx => iterate_growStep_mono seedStart_ok hmn _ hx))

/-- The closure iteration has stabilised (as a set) at some index
bounded by the voxel count. -/
theorem iterate_growStep_stab {ok : Pos3 → Bool} {dims seed : Pos3} :
    ∃ n ≤ (allPos3 dims).length,
      ∀ x, x ∈ (growStep ok dims)^[n] (seedStart ok dims seed) ↔
        x ∈ (growStep ok dims)^[n + 1] (seedStart ok dims seed) := by
  set N := (allPos3 dims).length with hN
  by_contra hcon
  push_neg at hcon
  have hstrict : ∀ n ≤ N,
      ((growStep ok dims)^[n] (seedStart ok dims seed)).length <
        ((growStep ok dims)^[n + 1] (seedStart ok dims seed)).length := by
    intro n hn
    obtain ⟨x, hx⟩ := hcon n hn
    rcases Nat.lt_or_ge ((growStep ok dims)^[n] (seedStart ok dims seed)).length
      ((growStep ok dims)^[n + 1] (seedStart ok dims seed)).length with h | h
    · exact h
    · exfalso
      have hsub : List.Subperm ((growStep ok dims)^[n] (seedStart ok dims seed))
          ((growStep ok dims)^[n + 1] (seedStart ok dims seed)) :=
        List.subperm_of_subset (iterate_growStep_nodup n)
          (fun _ hy => iterate_growStep_mono seedStart_ok (Nat.le_succ n) _ hy)
      have hperm := hsub.perm_of_length_le h
      rcases hx with ⟨h1, h2⟩ | ⟨h1, h2⟩
      · exact h2 (hperm.mem_iff.mp h1)
      · exact h1 (hperm.mem_iff.mpr h2)
  have hge : ∀ m, m ≤ N + 1 →
      m ≤ ((growStep ok dims)^[m] (seedStart ok dims seed)).length := by
    intro m
    induction m with
    | zero => intro _; exact Nat.zero_le _
    | succ k ih =>
      intro hk
      have h1 := ih (Nat.le_of_succ_le hk)
      have h2 := hstrict k (Nat.lt_succ_iff.mp hk)
      omega
  have hg1 := hge (N + 1) (Nat.le_refl _)
  have hg2 := @iterate_growStep_length_le ok dims seed (N + 1)
  omega

/-- Once stabilised, the iterates stay at the same set forever. -/
theorem iterate_growStep_stable_after {ok : Pos3 → Bool} {dims seed : Pos3} {n : ℕ}
    (hstab : ∀ x, x ∈ (growStep ok dims)^[n] (seedStart ok dims seed) ↔
      x ∈ (growStep ok dims)^[n + 1] (seedStart ok dims seed)) :
    ∀ j x, x ∈ (growStep ok dims)^[n + j] (seedStart ok dims seed) ↔
      x ∈ (growStep ok dims)^[n] (seedStart ok dims seed) := by
  intro j
  induction j with
  | zero => exact fun x => Iff.rfl
  | succ k ih =>
    intro x
    have heq : (growStep ok dims)^[n + k + 1] (seedStart ok dims seed) =
        (growStep ok dims)^[n + 1] (seedStart ok dims seed) := by
      rw [Function.iterate_succ_apply', Function.iterate_succ_apply']
      exact growStep_congr ih
    rw [show n + (k + 1) = n + k + 1 from rfl, heq]
    exact (hstab x).symm

/-- Correctness of the component computation: `bfsFrom` collects
exactly the voxels reachable from the seed. -/
theorem mem_bfsFrom {ok : Pos3 → Bool} {dims seed p : Pos3} :
    p ∈ bfsFrom ok dims seed ↔ Reaches ok dims seed p := by
  constructor
  · exact iterate_growStep_sound _ p
  · intro h
    obtain ⟨k, hk⟩ := reaches_mem_iterate h
    obtain ⟨n, hn, hstab⟩ := @iterate_growStep_stab ok dims seed
    rcases Nat.le_total k (allPos3 dims).length with hkN | hkN
    · exact iterate_growStep_mono seedStart_ok hkN p hk
    · have h1 : p ∈ (growStep ok dims)^[n + (k - n)] (seedStart ok dims seed) := by
        have heq : n + (k - n) = k := by omega
        rw [heq]
        exact hk
      have h2 := (iterate_growStep_stable_after hstab (k - n) p).mp h1
      exact iterate_growStep_mono seedStart_ok hn p h2

/-! ### Reachability is a partial equivalence on the foreground -/

theorem reaches_ok {ok : Pos3 → Bool} {dims seed p : Pos3}
    (h : Reaches ok dims seed p) : inBounds3 dims p = true ∧ ok p = true := by
  induction h with
  | base hb hok => exact ⟨hb, hok⟩
  | step _ hb hok _ => exact ⟨hb, hok⟩

theorem reaches_trans {ok : Pos3 → Bool} {dims : Pos3} {a b c : Pos3}
    (hab : Reaches ok dims a b) (hbc : Reaches ok dims b c) : Reaches ok dims a c := by
  induction hbc with
  | base _ _ => exact hab
  | step _ hb hok hadj ih => exact Reaches.step ih hb hok hadj

theorem reaches_symm {ok : Pos3 → Bool} {dims : Pos3} {a b : Pos3}
    (h : Reaches ok dims a b) : Reaches ok dims b a := by
  induction h with
  | base hb hok => exact Reaches.base hb hok
  | step hr hb hok hadj ih =>
    rename_i q r
    have hq := reaches_ok hr
    have hrq : Reaches ok dims r q :=
      Reaches.step (Reaches.base hb hok) hq.1 hq.2 (by rw [adj6_symm]; exact hadj)
    exact reaches_trans hrq ih

/-! ## Connected-component labelling (`scipy.ndimage.label`)

`ndimage.label` scans the array in raster order and gives each newly
encountered foreground component the next label, starting from 1;
background keeps label 0.  `labelScan` reproduces this: it folds over
the raster order, and whenever it meets a foreground voxel that has no
label yet, it assigns the next label to that voxel's whole component. -/

/-- One step of the labelling scan.  The accumulator carries the
assignment list and the next free label. -/
def labelStep (ok : Pos3 → Bool) (dims : Pos3) (acc : List (Pos3 × ℕ) × ℕ) (p : Pos3) :
    List (Pos3 × ℕ) × ℕ :=
  if ok p && (acc.1.lookup p).isNone then
    (acc.1 ++ (bfsFrom ok dims p).map (fun q => (q, acc.2)), acc.2 + 1)
  else acc

/-- The full labelling pass of `ndimage.label` over a `dims`-shaped
boolean array `ok`. -/
def labelScan (ok : Pos3 → Bool) (dims : Pos3) : List (Pos3 × ℕ) × ℕ :=
  (allPos3 dims).foldl (labelStep ok dims) ([], 1)

/-- The label of a voxel: its assignment, or 0 (background). -/
def labelOf3 (ok : Pos3 → Bool) (dims : Pos3) (p : Pos3) : ℕ :=
  ((labelScan ok dims).1.lookup p).getD 0

/-- The `num_features` count returned by `ndimage.label`. -/
def numLabels3 (ok : Pos3 → Bool) (dims : Pos3) : ℕ :=
  (labelScan ok dims).2 - 1

/-- Embeds `ndimage.sum(mask, labeled, [l])`: the voxel count of the
component labelled `l`. -/
def componentSize (ok : Pos3 → Bool) (dims : Pos3) (l : ℕ) : ℕ :=
  ((allPos3 dims).filter (fun q => labelOf3 ok dims q == l)).length

/-- Invariant of the labelling scan after processing the prefix `ps`
of the raster order. -/
structure LabelInv (ok : Pos3 → Bool) (dims : Pos3) (ps : List Pos3)
    (st : List (Pos3 × ℕ) × ℕ) : Prop where
  okOf : ∀ q l, st.1.lookup q = some l → inBounds3 dims q = true ∧ ok q = true
  bounds : ∀ q l, st.1.lookup q = some l → 1 ≤ l ∧ l < st.2
  cpos : 1 ≤ st.2
  closed : ∀ q l, st.1.lookup q = some l → ∀ r, Reaches ok dims q r → st.1.lookup r = some l
  comp : ∀ q r l, st.1.lookup q = some l → st.1.lookup r = some l → Reaches ok dims q r
  covered : ∀ p ∈ ps, ok p = true → (st.1.lookup p).isSome = true

theorem lookup_map_pair {c : ℕ} {l : List Pos3} {r : Pos3} :
    (l.map (fun q => (q, c))).lookup r = if r ∈ l then some c else none := by
  induction l with
  | nil => simp
  | cons x xs ih =>
    by_cases hrx : r = x
    · subst hrx
      simp [List.lookup_cons]
    · rw [List.map_cons, List.lookup_cons]
      have : (r == x) = false := beq_false_of_ne hrx
      rw [this]
      simp only [ih, List.mem_cons]
      by_cases hm : r ∈ xs <;> simp [hm, hrx]

theorem labelInv_step {ok : Pos3 → Bool} {dims : Pos3} {ps : List Pos3}
    {st : List (Pos3 × ℕ) × ℕ} {p : Pos3}
    (hInv : LabelInv ok dims ps st) (hp : p ∈ allPos3 dims) :
    LabelInv ok dims (ps ++ [p]) (labelStep ok dims st p) := by
  by_cases hc : (ok p && (st.1.lookup p).isNone) = true
  · rw [Bool.and_eq_true] at hc
    obtain ⟨hokp, hnone⟩ := hc
    rw [Option.isNone_iff_eq_none] at hnone
    have hreachp : Reaches ok dims p p := Reaches.base (mem_allPos3.mp hp) hokp
    have hdisj : ∀ q, q ∈ bfsFrom ok dims p → st.1.lookup q = none := by
      intro q hq
      cases hlq : st.1.lookup q with
      | none => rfl
      | some l =>
        exfalso
        have hr : Reaches ok dims q p := reaches_symm (mem_bfsFrom.mp hq)
        have := hInv.closed q l hlq p hr
        rw [hnone] at this
        exact Option.noConfusion this
    have hstep : labelStep ok dims st p =
        (st.1 ++ (bfsFrom ok dims p).map (fun q => (q, st.2)), st.2 + 1) := by
      rw [labelStep, if_pos]
      rw [Bool.and_eq_true, Option.isNone_iff_eq_none]
      exact ⟨hokp, hnone⟩
    rw [hstep]
    have hlook : ∀ q l, (st.1 ++ (bfsFrom ok dims p).map (fun r => (r, st.2))).lookup q = some l ↔
        (st.1.lookup q = some l ∨
          (st.1.lookup q = none ∧ q ∈ bfsFrom ok dims p ∧ l = st.2)) := by
      intro q l
      rw [List.lookup_append, lookup_map_pair]
      cases hlq : st.1.lookup q with
      | some l0 => simp
      | none =>
        by_cases hm : q ∈ bfsFrom ok dims p <;> simp [hm, eq_comm]
    refine ⟨?_, ?_, ?_, ?_, ?_, ?_⟩
    · intro q l hl
      rcases (hlook q l).mp hl with h | ⟨_, hmem, _⟩
      · exact hInv.okOf q l h
      · exact reaches_ok (mem_bfsFrom.mp hmem)
    · intro q l hl
      rcases (hlook q l).mp hl with h | ⟨_, _, rfl⟩
      · have := hInv.bounds q l h
        omega
      · have := hInv.cpos
        omega
    · have := hInv.cpos
      omega
    · intro q l hl r hr
      rcases (hlook q l).mp hl with h | ⟨_, hmem, rfl⟩
      · exact (hlook r l).mpr (Or.inl (hInv.closed q l h r hr))
      · have hpr : Reaches ok dims p r := reaches_trans (mem_bfsFrom.mp hmem) hr
        have hrmem : r ∈ bfsFrom ok dims p := mem_bfsFrom.mpr hpr
        exact (hlook r st.2).mpr (Or.inr ⟨hdisj r hrmem, hrmem, rfl⟩)
    · intro q r l hq hr
      rcases (hlook q l).mp hq with h1 | ⟨_, hmem1, rfl⟩
      · rcases (hlook r l).mp hr with h2 | ⟨_, _, rfl⟩
        · exact hInv.comp q r l h1 h2
        · have := hInv.bounds q st.2 h1
          omega
      · rcases (hlook r st.2).mp hr with h2 | ⟨_, hmem2, _⟩
        · have := hInv.bounds r st.2 h2
          omega
        · exact reaches_trans (reaches_symm (mem_bfsFrom.mp hmem1)) (mem_bfsFrom.mp hmem2)
    · intro x hx hokx
      rw [Option.isSome_iff_exists]
      rcases List.mem_append.mp hx with hxps | hxp
      · have := hInv.covered x hxps hokx
        rw [Option.isSome_iff_exists] at this
        obtain ⟨l, hl⟩ := this
        exact ⟨l, (hlook x l).mpr (Or.inl hl)⟩
      · have hxp2 : x = p := by simpa using hxp
        subst hxp2
        exact ⟨st.2, (hlook x st.2).mpr
          (Or.inr ⟨hnone, mem_bfsFrom.mpr hreachp, rfl⟩)⟩
  · have hstep : labelStep ok dims st p = st := by
      rw [labelStep, if_neg hc]
    rw [hstep]
    refine ⟨hInv.okOf, hInv.bounds, hInv.cpos, hInv.closed, hInv.comp, ?_⟩
    intro x hx hokx
    rcases List.mem_append.mp hx with hxps | hxp
    · exact hInv.covered x hxps hokx
    · have hxp2 : x = p := by simpa using hxp
      subst hxp2
      rw [Bool.and_eq_true] at hc
      push_neg at hc
      have := hc hokx
      cases hl : st.1.lookup x with
      | none =>
        rw [hl] at this
        simp at this
      | some l => rfl

theorem labelInv_fold {ok : Pos3 → Bool} {dims : Pos3} :
    ∀ (l ps : List Pos3) (st : List (Pos3 × ℕ) × ℕ),
      LabelInv ok dims ps st → (∀ x ∈ l, x ∈ allPos3 dims) →
      LabelInv ok dims (ps ++ l) (l.foldl (labelStep ok dims) st) := by
  intro l
  induction l with
  | nil =>
    intro ps st hInv _
    simpa using hInv
  | cons x xs ih =>
    intro ps st hInv hmem
    have h1 := labelInv_step hInv (hmem x (List.mem_cons_self x xs))
    have h2 := ih (ps ++ [x]) (labelStep ok dims st x) h1
      (fun y hy => hmem y (List.mem_cons_of_mem x hy))
    simpa using h2

theorem labelScan_inv (ok : Pos3 → Bool) (dims : Pos3) :
    LabelInv ok dims (allPos3 dims) (labelScan ok dims) := by
  have h0 : LabelInv ok dims [] ([], 1) := by
    refine ⟨?_, ?_, ?_, ?_, ?_, ?_⟩
    · intro q l hl; exact Option.noConfusion hl
    · intro q l hl; exact Option.noConfusion hl
    · exact Nat.le_refl 1
    · intro q l hl; exact Option.noConfusion hl
    · intro q r l hq; exact Option.noConfusion hq
    · intro p hp; exact absurd hp (List.not_mem_nil p)
  have := labelInv_fold (allPos3 dims) [] ([], 1) h0 (fun x hx => hx)
  simpa [labelScan] using this

/-- The voxels carrying the same label as an in-bounds foreground
seed are exactly the seed's connected component. -/
theorem labelOf3_eq_seed_iff {ok : Pos3 → Bool} {dims seed : Pos3}
    (hb : inBounds3 dims seed = true) (hok : ok seed = true) (p : Pos3) :
    (labelOf3 ok dims p = labelOf3 ok dims seed) ↔ Reaches ok dims seed p := by
  have hInv := labelScan_inv ok dims
  have hcov := hInv.covered seed (mem_allPos3.mpr hb) hok
  rw [Option.isSome_iff_exists] at hcov
  obtain ⟨ls, hls⟩ := hcov
  have hls1 : 1 ≤ ls := (hInv.bounds seed ls hls).1
  rw [labelOf3, labelOf3, hls]
  cases hlp : (labelScan ok dims).1.lookup p with
  | none =>
    simp only [Option.getD_none, Option.getD_some]
    constructor
    · intro h
      omega
    · intro hr
      have := hInv.closed seed ls hls p hr
      rw [hlp] at this
      exact Option.noConfusion this
  | some l =>
    simp only [Option.getD_some]
    constructor
    · intro h
      subst h
      exact hInv.comp seed p l hls hlp
    · intro hr
      have := hInv.closed seed ls hls p hr
      rw [hlp] at this
      cases this
      rfl

/-! ## Segmentation entry points (`OrganSegmentation`) -/

/-- The seed voxel of `fast_region_growing`:
`tuple(s // 2 for s in volume.shape)` when no seed is given. -/
def seedOf (dims : Pos3) (seedOpt : Option Pos3) : Pos3 :=
  seedOpt.getD (dims.1 / 2, dims.2.1 / 2, dims.2.2 / 2)

/-- The similarity mask `np.abs(volume - seed_value) <= tolerance`. -/
def simOk (dims : Pos3) (val : Pos3 → ℚ) (seedOpt : Option Pos3) (tol : ℚ) : Pos3 → Bool :=
  fun p => decide (|val p - val (seedOf dims seedOpt)| ≤ tol)

/-- Embeds `fast_region_growing` on a volume of shape `dims` with voxel values
`val`: label the similarity mask with `ndimage.label` (6-connectivity)
and return `labeled == labeled[seed_point]` as a boolean mask over the
array's voxels. -/
def fastRegionGrowing (dims : Pos3) (val : Pos3 → ℚ) (seedOpt : Option Pos3) (tol : ℚ) :
    Pos3 → Bool :=
  fun p => inBounds3 dims p &&
    (labelOf3 (simOk dims val seedOpt tol) dims p ==
      labelOf3 (simOk dims val seedOpt tol) dims (seedOf dims seedOpt))

/-- The component-pruning stage of `morphological_cleanup` (fast mode),
applied to the mask produced by the opening and closing steps:
`labeled, num = ndimage.label(mask)`,
`sizes = ndimage.sum(mask, labeled, range(1, num + 1))`,
`mask_sizes = sizes >= remove_small`,
`mask = mask_sizes[(labeled - 1).clip(0)]`.
Entry `i` of `mask_sizes` is the keep flag of the component labelled
`i + 1`, and the fancy index `(labeled - 1).clip(0)` sends label
`l ≥ 1` to entry `l - 1` and background (label 0) to entry 0.  When no
component exists and the array is nonempty numpy raises `IndexError`
on the empty `mask_sizes`; that case is `none`. -/
def morphPrune (dims : Pos3) (mask : Pos3 → Bool) (removeSmall : ℕ) :
    Option (Pos3 → Bool) :=
  if numLabels3 mask dims = 0 ∧ allPos3 dims ≠ [] then none
  else some (fun p =>
    decide (removeSmall ≤ componentSize mask dims ((labelOf3 mask dims p - 1) + 1)))

/-! ## STL normals (`ModelExporter.export_stl`, normal computation)

The float arithmetic on the triangle coordinates is modelled by exact
real arithmetic. -/

/-- A 3D float vector. -/
abbrev V3 := ℝ × ℝ × ℝ

/-- Componentwise vector difference (`v1 - v0`). -/
def vsub (a b : V3) : V3 := (a.1 - b.1, a.2.1 - b.2.1, a.2.2 - b.2.2)

/-- Embeds `np.cross` of two 3D vectors. -/
def cross3 (a b : V3) : V3 :=
  (a.2.1 * b.2.2 - a.2.2 * b.2.1,
   a.2.2 * b.1 - a.1 * b.2.2,
   a.1 * b.2.1 - a.2.1 * b.1)

/-- The squared Euclidean norm. -/
def normSq3 (v : V3) : ℝ := v.1 ^ 2 + v.2.1 ^ 2 + v.2.2 ^ 2

/-- Embeds `np.linalg.norm`: the Euclidean norm. -/
noncomputable def enorm3 (v : V3) : ℝ := Real.sqrt (normSq3 v)

/-- The per-triangle normal written by `export_stl`:
`normals = np.cross(edge1, edge2)`, then `norms[norms == 0] = 1`
before dividing, so a degenerate triangle divides by one instead of
by zero. -/
noncomputable def stlNormal (v0 v1 v2 : V3) : V3 :=
  let c := cross3 (vsub v1 v0) (vsub v2 v0)
  let n := enorm3 c
  let n2 := if n = 0 then 1 else n
  (c.1 / n2, c.2.1 / n2, c.2.2 / n2)

theorem normSq3_eq_zero_iff (v : V3) : normSq3 v = 0 ↔ v = (0, 0, 0) := by
  obtain ⟨x, y, z⟩ := v
  simp only [normSq3, Prod.mk.injEq]
  constructor
  · intro h
    have hx := sq_nonneg x
    have hy := sq_nonneg y
    have hz := sq_nonneg z
    refine ⟨?_, ?_, ?_⟩ <;> nlinarith
  · rintro ⟨rfl, rfl, rfl⟩
    ring

theorem enorm3_eq_zero_iff (v : V3) : enorm3 v = 0 ↔ v = (0, 0, 0) := by
  rw [enorm3, ← normSq3_eq_zero_iff]
  constructor
  · intro h
    have hnn : 0 ≤ normSq3 v := by
      obtain ⟨x, y, z⟩ := v
      simp only [normSq3]
      positivity
    have := Real.sqrt_eq_zero hnn |>.mp h
    exact this
  · intro h
    rw [h, Real.sqrt_zero]

/-! ## Binary STL bytes (`export_stl` and the `/api/preview` parser)

Bytes are naturals below 256.  A float32 value is represented by its
32-bit pattern; the cast from the (exact) vertex coordinates to such a
pattern is an arbitrary function `f32`, and similarly `nb` gives the
bit patterns of the three components of the computed float32 normal.
Everything proved below holds for any such casts, in particular for
the IEEE-754 ones. -/

/-- A little-endian 4-byte encoding of a 32-bit value (`np.uint32` /
`np.float32` memory layout). -/
def le4 (n : ℕ) : List ℕ :=
  [n % 256, n / 256 % 256, n / 65536 % 256, n / 16777216 % 256]

/-- Embeds `struct.unpack` of one little-endian 32-bit value: 4 bytes or fail. -/
def dec4 : List ℕ → Option (ℕ × List ℕ)
  | b0 :: b1 :: b2 :: b3 :: rest =>
    some (b0 + 256 * b1 + 65536 * b2 + 16777216 * b3, rest)
  | _ => none

theorem dec4_le4 (n : ℕ) (h : n < 4294967296) (rest : List ℕ) :
    dec4 (le4 n ++ rest) = some (n, rest) := by
  have hd : n % 256 + 256 * (n / 256 % 256) + 65536 * (n / 65536 % 256) +
      16777216 * (n / 16777216 % 256) = n := by
    omega
  simp only [le4, List.cons_append, List.nil_append, dec4, Option.some.injEq, Prod.mk.injEq]
  exact ⟨hd, trivial⟩

/-- A mesh as held by the converter: vertex coordinates (exact values
standing for the float64 array) and triangular faces as index triples. -/
structure MeshQ where
  vertices : List (ℚ × ℚ × ℚ)
  faces : List (ℕ × ℕ × ℕ)

/-- The 80-byte header `b'Binary STL - Fast Export' + b'\0' * 56`. -/
def headerBytes : List ℕ :=
  ("Binary STL - Fast Export".toList.map Char.toNat) ++ List.replicate 56 0

theorem headerBytes_length : headerBytes.length = 80 := by decide

/-- The 12 bytes of one float32 vector (3 coordinates, little-endian). -/
def vbytes (f32 : ℚ → ℕ) (v : ℚ × ℚ × ℚ) : List ℕ :=
  le4 (f32 v.1) ++ le4 (f32 v.2.1) ++ le4 (f32 v.2.2)

/-- A triangle with its three (exact) vertex positions. -/
abbrev TriQ := (ℚ × ℚ × ℚ) × (ℚ × ℚ × ℚ) × (ℚ × ℚ × ℚ)

/-- One 50-byte record of the binary STL body: normal, three vertices,
and the 2-byte attribute count (zero, from `np.zeros`). -/
def recordBytes (f32 : ℚ → ℕ) (nb : TriQ → ℕ × ℕ × ℕ) (t : TriQ) : List ℕ :=
  (le4 (nb t).1 ++ le4 (nb t).2.1 ++ le4 (nb t).2.2) ++
    (vbytes f32 t.1 ++ (vbytes f32 t.2.1 ++ (vbytes f32 t.2.2 ++ [0, 0])))

/-- Embeds `vertices[faces]` for one face: numpy fancy indexing, which raises
`IndexError` on an out-of-range index. -/
def triOf (m : MeshQ) (f : ℕ × ℕ × ℕ) : Option TriQ := do
  let a ← m.vertices.get? f.1
  let b ← m.vertices.get? f.2.1
  let c ← m.vertices.get? f.2.2
  pure (a, b, c)

/-- Embeds `export_stl` in binary mode: 80-byte header, little-endian `uint32`
triangle count, then the 50-byte records of all faces in order. -/
def exportSTL (f32 : ℚ → ℕ) (nb : TriQ → ℕ × ℕ × ℕ) (m : MeshQ) : Option (List ℕ) :=
  (m.faces.mapM (triOf m)).map (fun tris =>
    headerBytes ++ le4 m.faces.length ++ (tris.map (recordBytes f32 nb)).flatten)

/-- A parsed vertex: the three 32-bit patterns read by
`struct.unpack('fff', f.read(12))`. -/
def parseV (bs : List ℕ) : Option ((ℕ × ℕ × ℕ) × List ℕ) := do
  let (x, r1) ← dec4 bs
  let (y, r2) ← dec4 r1
  let (z, r3) ← dec4 r2
  pure ((x, y, z), r3)

/-- A parsed triangle: three vertices of three 32-bit patterns. -/
abbrev PTri := (ℕ × ℕ × ℕ) × (ℕ × ℕ × ℕ) × (ℕ × ℕ × ℕ)

/-- The record loop of the `/api/preview` parser: skip the 12 normal
bytes, read three vertices, skip the 2 attribute bytes. -/
def parseTris : ℕ → List ℕ → Option (List PTri)
  | 0, _ => some []
  | n + 1, bs => do
    let (v0, r1) ← parseV (bs.drop 12)
    let (v1, r2) ← parseV r1
    let (v2, r3) ← parseV r2
    let rest ← parseTris n (r3.drop 2)
    pure ((v0, v1, v2) :: rest)

/-- The STL parser of `preview_model`: skip the 80-byte header, read
the little-endian triangle count, then read
`min(num_triangles, 100000)` records. -/
def parseSTL (bs : List ℕ) : Option (List PTri) := do
  let (n, r) ← dec4 (bs.drop 80)
  parseTris (min n 100000) r

/-- The 32-bit patterns of one vertex after the float32 cast. -/
def pix (f32 : ℚ → ℕ) (v : ℚ × ℚ × ℚ) : ℕ × ℕ × ℕ :=
  (f32 v.1, f32 v.2.1, f32 v.2.2)

theorem parseV_vbytes (f32 : ℚ → ℕ) (hf : ∀ q, f32 q < 4294967296)
    (v : ℚ × ℚ × ℚ) (rest : List ℕ) :
    parseV (vbytes f32 v ++ rest) = some (pix f32 v, rest) := by
  rw [parseV, vbytes]
  rw [List.append_assoc, List.append_assoc]
  rw [dec4_le4 _ (hf _)]
  simp only [Option.bind_eq_bind, Option.some_bind]
  rw [dec4_le4 _ (hf _)]
  simp only [Option.some_bind]
  rw [dec4_le4 _ (hf _)]
  rfl

theorem parseTris_records (f32 : ℚ → ℕ) (nb : TriQ → ℕ × ℕ × ℕ)
    (hf : ∀ q, f32 q < 4294967296) :
    ∀ (tris : List TriQ) (k : ℕ), k ≤ tris.length → ∀ rest : List ℕ,
      parseTris k ((tris.map (recordBytes f32 nb)).flatten ++ rest) =
        some ((tris.take k).map (fun t => (pix f32 t.1, pix f32 t.2.1, pix f32 t.2.2))) := by
  intro tris
  induction tris with
  | nil =>
    intro k hk rest
    have hk0 : k = 0 := Nat.le_zero.mp hk
    subst hk0
    rfl
  | cons t ts ih =>
    intro k hk rest
    cases k with
    | zero => rfl
    | succ k2 =>
      rw [List.map_cons, List.flatten_cons, List.append_assoc]
      rw [parseTris]
      have hdrop : (recordBytes f32 nb t ++ ((ts.map (recordBytes f32 nb)).flatten ++ rest)).drop 12 =
          vbytes f32 t.1 ++ (vbytes f32 t.2.1 ++ (vbytes f32 t.2.2 ++ [0, 0])) ++
            ((ts.map (recordBytes f32 nb)).flatten ++ rest) := by
        rw [recordBytes, List.append_assoc]
        refine List.drop_left' ?_
        simp only [List.length_append, le4]
        rfl
      rw [hdrop]
      simp only [List.append_assoc]
      rw [parseV_vbytes f32 hf]
      simp only [Option.bind_eq_bind, Option.some_bind]
      rw [parseV_vbytes f32 hf]
      simp only [Option.some_bind]
      rw [parseV_vbytes f32 hf]
      simp only [Option.some_bind]
      have hdrop2 : (([0, 0] : List ℕ) ++ ((ts.map (recordBytes f32 nb)).flatten ++ rest)).drop 2 =
          (ts.map (recordBytes f32 nb)).flatten ++ rest := rfl
      rw [hdrop2]
      rw [ih k2 (Nat.succ_le_succ_iff.mp hk) rest]
      simp

theorem triOf_of_bounds (m : MeshQ) {f : ℕ × ℕ × ℕ}
    (h : f.1 < m.vertices.length ∧ f.2.1 < m.vertices.length ∧ f.2.2 < m.vertices.length) :
    triOf m f = some (m.vertices.getD f.1 (0, 0, 0), m.vertices.getD f.2.1 (0, 0, 0),
      m.vertices.getD f.2.2 (0, 0, 0)) := by
  obtain ⟨h1, h2, h3⟩ := h
  rw [triOf]
  rw [List.get?_eq_get h1, List.get?_eq_get h2, List.get?_eq_get h3]
  simp [List.getD_eq_get? , List.get?_eq_get, h1, h2, h3]

theorem mapM_triOf (m : MeshQ) :
    ∀ (fs : List (ℕ × ℕ × ℕ)),
      (∀ f ∈ fs, f.1 < m.vertices.length ∧ f.2.1 < m.vertices.length ∧
        f.2.2 < m.vertices.length) →
      fs.mapM (triOf m) =
        some (fs.map (fun f =>
          (m.vertices.getD f.1 (0, 0, 0), m.vertices.getD f.2.1 (0, 0, 0),
            m.vertices.getD f.2.2 (0, 0, 0)))) := by
  intro fs
  induction fs with
  | nil => intro _; rfl
  | cons f fs2 ih =>
    intro hb
    rw [List.mapM_cons, triOf_of_bounds m (hb f (List.mem_cons_self f fs2))]
    rw [ih (fun g hg => hb g (List.mem_cons_of_mem f hg))]
    rfl

/-- Full export / parse round trip, for any float32 casts: parsing the
exported bytes succeeds and yields the first `min(faces, 100000)`
triangles, each vertex being the float32 cast of the corresponding
source vertex. -/
theorem stl_roundtrip (f32 : ℚ → ℕ) (nb : TriQ → ℕ × ℕ × ℕ) (m : MeshQ)
    (hf : ∀ q, f32 q < 4294967296)
    (hface : ∀ f ∈ m.faces, f.1 < m.vertices.length ∧ f.2.1 < m.vertices.length ∧
      f.2.2 < m.vertices.length)
    (hcount : m.faces.length < 4294967296) :
    ∃ bs, exportSTL f32 nb m = some bs ∧
      parseSTL bs = some ((m.faces.take (min m.faces.length 100000)).map (fun f =>
        (pix f32 (m.vertices.getD f.1 (0, 0, 0)),
         pix f32 (m.vertices.getD f.2.1 (0, 0, 0)),
         pix f32 (m.vertices.getD f.2.2 (0, 0, 0))))) := by
  have hmapM := mapM_triOf m m.faces hface
  set g : (ℕ × ℕ × ℕ) → TriQ := fun f =>
    (m.vertices.getD f.1 (0, 0, 0), m.vertices.getD f.2.1 (0, 0, 0),
      m.vertices.getD f.2.2 (0, 0, 0)) with hg
  refine ⟨headerBytes ++ le4 m.faces.length ++ ((m.faces.map g).map (recordBytes f32 nb)).flatten,
    ?_, ?_⟩
  · rw [exportSTL, hmapM]
    rfl
  · rw [parseSTL]
    have hdrop80 : (headerBytes ++ le4 m.faces.length ++
        ((m.faces.map g).map (recordBytes f32 nb)).flatten).drop 80 =
        le4 m.faces.length ++ ((m.faces.map g).map (recordBytes f32 nb)).flatten := by
      rw [List.append_assoc]
      exact List.drop_left' headerBytes_length
    rw [hdrop80, dec4_le4 _ hcount]
    simp only [Option.bind_eq_bind, Option.some_bind]
    have hparse := parseTris_records f32 nb hf (m.faces.map g)
      (min m.faces.length 100000)
      (by rw [List.length_map]; exact Nat.min_le_left _ _) []
    rw [List.append_nil] at hparse
    rw [hparse]
    rw [← List.map_take, List.map_map]
    rfl

/-! ## The `Medical3DConverter` pipeline object

The object's mutable fields become an explicit state record; a method
that raises becomes `Except.error` (the Python object is left
untouched when a method raises before assigning, so the caller keeps
the unchanged state).  The heavy numeric stages (`segmentation`,
`marching cubes`, `simplify`, `smooth`) enter as opaque stage
functions: the claims about the object concern only its
stage-ordering checks and format dispatch. -/

/-- The mutable state of `Medical3DConverter.__init__`. -/
structure ConverterState where
  volume : Option (List (List (List ℚ)))
  spacing : Option (List ℚ)
  mask : Option (List (List (List ℚ)))
  vertices : Option (List (ℚ × ℚ × ℚ))
  faces : Option (List (ℕ × ℕ × ℕ))
  normals : Option (List (ℚ × ℚ × ℚ))
  fastMode : Bool

/-- A fresh converter: every data field is `None`. -/
def ConverterState.init (fastMode : Bool) : ConverterState :=
  ⟨none, none, none, none, none, none, fastMode⟩

/-- Embeds `Medical3DConverter.segment`: raise `ValueError("Load data first")`
when no volume is loaded; otherwise run the chosen segmentation
(`fast_region_growing` for method `region_growing`, thresholding
otherwise) followed by `morphological_cleanup`, and store the mask. -/
def ConverterState.segment
    (regionGrow : List (List (List ℚ)) → List (List (List ℚ)))
    (thresholdSeg : List (List (List ℚ)) → List (List (List ℚ)))
    (cleanup : List (List (List ℚ)) → Bool → List (List (List ℚ)))
    (method : String) (st : ConverterState) : Except String ConverterState :=
  match st.volume with
  | none => Except.error "Load data first"
  | some v =>
    let raw := if method = "region_growing" then regionGrow v else thresholdSeg v
    Except.ok { st with mask := some (cleanup raw st.fastMode) }

/-- Embeds `Medical3DConverter.extract_surface`: raise
`ValueError("Segment first")` when no mask is present; otherwise run
marching cubes (plus optional simplify / smooth) and store the mesh. -/
def ConverterState.extractSurface
    (marchingCubes : List (List (List ℚ)) → List ℚ →
      List (ℚ × ℚ × ℚ) × List (ℕ × ℕ × ℕ) × List (ℚ × ℚ × ℚ))
    (st : ConverterState) : Except String ConverterState :=
  match st.mask with
  | none => Except.error "Segment first"
  | some msk =>
    let r := marchingCubes msk (st.spacing.getD [1, 1, 1])
    Except.ok { st with vertices := some r.1, faces := some r.2.1, normals := some r.2.2 }

/-- Python `str.lower` (the format strings involved are ASCII). -/
def strLower (s : String) : String := ⟨s.data.map Char.toLower⟩

/-- The filename normalisation of `export_stl` / `export_obj`: append
the extension when it is missing. -/
def withExt (filename ext : String) : String :=
  if (strLower filename).endsWith ext then filename else filename ++ ext

/-- Embeds `Medical3DConverter.export`: raise
`ValueError("Extract surface first")` when no mesh is present, then
dispatch on the lower-cased format, raising
`ValueError("Unknown format: ...")` for anything but `stl` and `obj`.
Returns the written filename. -/
def ConverterState.export (st : ConverterState) (filename format : String) :
    Except String String :=
  match st.vertices with
  | none => Except.error "Extract surface first"
  | some _ =>
    if strLower format = "stl" then Except.ok (withExt filename ".stl")
    else if strLower format = "obj" then Except.ok (withExt filename ".obj")
    else Except.error ("Unknown format: " ++ format)

/-! ## Claim theorems -/

/-! ### Helper lemmas shared by the claims about `read_dicom_series` -/

theorem sorted_key_index_lt {l : List DicomSlice}
    (hs : l.Sorted (fun a b => a.1 ≤ b.1)) {i j : ℕ} {si sj : DicomSlice}
    (hi : l.get? i = some si) (hj : l.get? j = some sj) (hlt : si.1 < sj.1) : i < j := by
  obtain ⟨hiL, hgi⟩ := List.get?_eq_some.mp hi
  obtain ⟨hjL, hgj⟩ := List.get?_eq_some.mp hj
  by_contra hcon
  push_neg at hcon
  rcases Nat.lt_or_eq_of_le hcon with hlt2 | heq
  · have hrel := hs.rel_get_of_lt (a := ⟨j, hjL⟩) (b := ⟨i, hiL⟩) (Fin.mk_lt_mk.mpr hlt2)
    rw [hgi, hgj] at hrel
    exact absurd hlt (not_lt.mpr hrel)
  · subst heq
    rw [hgi] at hgj
    rw [hgj] at hlt
    exact lt_irrefl _ hlt

theorem mem_filterMap_key {files : List (Option DicomData)} {x : DicomSlice}
    (hx : x ∈ files.filterMap readSingleDicom) : x.1 = x.2.ipp.getD 0 := by
  rw [List.mem_filterMap] at hx
  obtain ⟨a, _, hra⟩ := hx
  cases a with
  | none => exact Option.noConfusion hra
  | some d =>
    rw [readSingleDicom, Option.map_some'] at hra
    cases hra
    rfl

theorem mem_sortedValid_key {files : List (Option DicomData)} {x : DicomSlice}
    (hx : x ∈ sortedValid files) : x.1 = x.2.ipp.getD 0 :=
  mem_filterMap_key ((sortByPos_perm _).mem_iff.mp hx)

theorem processedSlices_sorted (files : List (Option DicomData)) (cap : ℕ) :
    (processedSlices files cap).Sorted (fun a b => a.1 ≤ b.1) := by
  rw [processedSlices]
  split
  · exact List.Pairwise.sublist (sliceStride_sublist _ _) (sortByPos_sorted _)
  · exact sortByPos_sorted _

theorem processedSlices_ne_nil {files : List (Option DicomData)} {cap : ℕ}
    (h : sortedValid files ≠ []) : processedSlices files cap ≠ [] := by
  rw [processedSlices]
  split
  · cases hsv : sortedValid files with
    | nil => exact absurd hsv h
    | cons x xs => exact sliceStride_ne_nil x xs _
  · exact h

theorem readDicomSeries_ok_spec {files : List (Option DicomData)} {cap : ℕ}
    {vol : List (List (List ℚ))} {sp : List ℚ}
    (h : readDicomSeries files cap = Except.ok (vol, sp)) :
    ∃ hd tl, processedSlices files cap = hd :: tl ∧ sp = spacingOf hd.2 ∧
      ((hd.2.rescaleSlope = none ∧ vol = (hd :: tl).map (fun s => s.2.pixels)) ∨
       (∃ sl t, hd.2.rescaleSlope = some sl ∧ hd.2.rescaleIntercept = some t ∧
         vol = ((hd :: tl).map (fun s => s.2.pixels)).map
           (List.map (List.map (fun x => x * sl + t))))) := by
  simp only [readDicomSeries] at h
  split at h
  · exact Except.noConfusion h
  · split at h
    · exact Except.noConfusion h
    · cases hp : processedSlices files cap with
      | nil =>
        rw [hp, stackAndScale] at h
        exact Except.noConfusion h
      | cons hd tl =>
        rw [hp, stackAndScale] at h
        split at h
        · cases hsl : hd.2.rescaleSlope with
          | none =>
            rw [hsl] at h
            have hinj := Except.ok.inj h
            refine ⟨hd, tl, rfl, (Prod.mk.injEq .. ▸ hinj).2.symm,
              Or.inl ⟨hsl, (Prod.mk.injEq .. ▸ hinj).1.symm⟩⟩
          | some sl =>
            rw [hsl] at h
            cases hit : hd.2.rescaleIntercept with
            | none =>
              rw [hit] at h
              exact Except.noConfusion h
            | some t =>
              rw [hit] at h
              have hinj := Except.ok.inj h
              refine ⟨hd, tl, rfl, (Prod.mk.injEq .. ▸ hinj).2.symm,
                Or.inr ⟨sl, t, hsl, hit, (Prod.mk.injEq .. ▸ hinj).1.symm⟩⟩
        · exact Except.noConfusion h

/-- C1: slices of the volume produced by `read_dicom_series` are
stacked in ascending order of physical position, regardless of the
order in which the directory listed the files: if a slice of the
processed (stacked) list has a strictly smaller position than another,
it sits at a strictly smaller depth index. -/
theorem readDicom_slices_position_sorted (files : List (Option DicomData)) (cap : ℕ)
    (i j : ℕ) (si sj : DicomSlice)
    (hi : (processedSlices files cap).get? i = some si)
    (hj : (processedSlices files cap).get? j = some sj)
    (hlt : si.1 < sj.1) : i < j :=
  sorted_key_index_lt (processedSlices_sorted files cap) hi hj hlt

/-- A decodable slice dataset at position 5 (later filename). -/
def c1dA : DicomData := ⟨some 5, [[1]], none, none, none, none⟩

/-- A decodable slice dataset at position 2 (earlier position, later
file in the listing). -/
def c1dB : DicomData := ⟨some 2, [[2]], none, none, none, none⟩

theorem readDicom_slices_position_sorted_witness :
    (processedSlices [some c1dA, some c1dB] 10).get? 0 = some (2, c1dB) ∧
    (processedSlices [some c1dA, some c1dB] 10).get? 1 = some (5, c1dA) ∧
    (0 : ℕ) < 1 :=
  ⟨by decide, by decide,
    readDicom_slices_position_sorted [some c1dA, some c1dB] 10 0 1 (2, c1dB) (5, c1dA)
      (by decide) (by decide) (by decide)⟩

/-- C10: a decoded file without `ImagePositionPatient` gets position 0,
hence sorts before every slice with a positive position, and the
relative order of the position-0 slices is the enumeration order of
their files (stability of the sort). -/
theorem missing_position_slices (files : List (Option DicomData)) :
    (∀ i j si sj, (sortedValid files).get? i = some si →
      (sortedValid files).get? j = some sj →
      si.2.ipp = none → 0 < sj.1 → i < j) ∧
    (sortedValid files).filter (fun s => s.2.ipp.isNone) =
      (files.filterMap readSingleDicom).filter (fun s => s.2.ipp.isNone) := by
  constructor
  · intro i j si sj hi hj hnone hpos
    have hkey : si.1 = 0 := by
      have := mem_sortedValid_key (List.get?_mem hi)
      rw [hnone] at this
      exact this
    exact sorted_key_index_lt (sortByPos_sorted _) hi hj (by rw [hkey]; exact hpos)
  · have hcongr : ∀ (l : List DicomSlice), (∀ x ∈ l, x.1 = x.2.ipp.getD 0) →
        l.filter (fun s => s.2.ipp.isNone) =
          l.filter (fun s => s.2.ipp.isNone && decide (s.1 = (0 : ℚ))) := by
      intro l hl
      refine List.filter_congr ?_
      intro a ha
      cases hP : a.2.ipp with
      | none =>
        have ha0 : a.1 = 0 := by
          rw [hl a ha, hP]
          rfl
        simp [hP, ha0]
      | some z => simp [hP]
    have h1 := hcongr (sortedValid files) (fun x hx => mem_sortedValid_key hx)
    have h2 := hcongr (files.filterMap readSingleDicom) (fun x hx => mem_filterMap_key hx)
    rw [h1, h2]
    rw [← List.filter_filter, ← List.filter_filter]
    have h3 : (sortedValid files).filter (fun y => decide (y.1 = (0 : ℚ))) =
        (files.filterMap readSingleDicom).filter (fun y => decide (y.1 = (0 : ℚ))) :=
      sortByPos_filter_key _ 0
    rw [sortedValid] at h3 ⊢
    rw [h3]

/-- A dataset with a physical position. -/
def c10dP : DicomData := ⟨some 3, [[1]], none, none, none, none⟩

/-- First dataset without `ImagePositionPatient`. -/
def c10dA : DicomData := ⟨none, [[2]], none, none, none, none⟩

/-- Second dataset without `ImagePositionPatient`. -/
def c10dB : DicomData := ⟨none, [[3]], none, none, none, none⟩

theorem missing_position_slices_witness :
    (sortedValid [some c10dP, some c10dA, some c10dB]).get? 0 = some (0, c10dA) ∧
    (sortedValid [some c10dP, some c10dA, some c10dB]).get? 2 = some (3, c10dP) ∧
    (0 : ℕ) < 2 :=
  ⟨by decide, by decide,
    (missing_position_slices [some c10dP, some c10dA, some c10dB]).1 0 2 (0, c10dA) (3, c10dP)
      (by decide) (by decide) (by decide) (by decide)⟩

/-- Concrete evaluations below reduce rational arithmetic in the
kernel; the arithmetic of `Rat` is hidden behind `irreducible`
definitions, which are reopened locally for that purpose. -/
theorem except_eq_ok_of_toOption {α : Type} {e : Except String α} {a : α}
    (h : e.toOption = some a) : e = Except.ok a := by
  cases e with
  | error msg => exact Option.noConfusion h
  | ok b =>
    rw [Except.toOption] at h
    cases h
    rfl

section ConcreteEvaluation

set_option allowUnsafeReducibility true
attribute [local semireducible] Rat.add Rat.mul Rat.sub

/-- A slice at position 0 with rescale `(slope, intercept) = (2, 0)`. -/
def c2d1 : DicomData := ⟨some 0, [[1]], none, none, some 2, some 0⟩

/-- A slice at position 1 with its own rescale `(3, 5)`. -/
def c2d2 : DicomData := ⟨some 1, [[1]], none, none, some 3, some 5⟩

/-- C2 counterexample: with two slices carrying different rescale
metadata, the returned volume applies the first slice's `(2, 0)` to
both slices; the second slice's voxel comes back as `1 * 2 + 0 = 2`
and not as its own `1 * 3 + 5 = 8`. -/
theorem rescale_not_per_file :
    (readDicomSeries [some c2d1, some c2d2] 10).toOption.map Prod.fst =
      some [[[2]], [[2]]] ∧
    (1 : ℚ) * 3 + 5 ≠ 2 := by
  constructor
  · decide
  · decide

/-- C2 (amended): the rescale applied to the stacked volume is the one
of the first slice in sorted (and subsampled) order, applied uniformly
to every slice; the other slices' rescale metadata is ignored, and
when the first slice has no `RescaleSlope`, no slice is rescaled. -/
theorem rescale_first_slice_global (files : List (Option DicomData)) (cap : ℕ)
    (vol : List (List (List ℚ))) (sp : List ℚ)
    (h : readDicomSeries files cap = Except.ok (vol, sp)) :
    ∃ hd : DicomSlice, (processedSlices files cap).head? = some hd ∧
      ((hd.2.rescaleSlope = none ∧
        vol = (processedSlices files cap).map (fun si => si.2.pixels)) ∨
       (∃ sl t, hd.2.rescaleSlope = some sl ∧ hd.2.rescaleIntercept = some t ∧
        vol = (processedSlices files cap).map (fun si =>
          si.2.pixels.map (List.map (fun x => x * sl + t))))) := by
  obtain ⟨hd, tl, hp, _, hvol⟩ := readDicomSeries_ok_spec h
  refine ⟨hd, by rw [hp]; rfl, ?_⟩
  rcases hvol with ⟨hsl, hvol⟩ | ⟨sl, t, hsl, hit, hvol⟩
  · refine Or.inl ⟨hsl, ?_⟩
    rw [hvol, hp]
  · refine Or.inr ⟨sl, t, hsl, hit, ?_⟩
    rw [hvol, hp, List.map_map]
    rfl

theorem rescale_first_slice_global_witness :
    ∃ hd : DicomSlice, (processedSlices [some c2d1, some c2d2] 10).head? = some hd ∧
      ((hd.2.rescaleSlope = none ∧
        ([[[2]], [[2]]] : List (List (List ℚ))) =
          (processedSlices [some c2d1, some c2d2] 10).map (fun si => si.2.pixels)) ∨
       (∃ sl t, hd.2.rescaleSlope = some sl ∧ hd.2.rescaleIntercept = some t ∧
        ([[[2]], [[2]]] : List (List (List ℚ))) =
          (processedSlices [some c2d1, some c2d2] 10).map (fun si =>
            si.2.pixels.map (List.map (fun x => x * sl + t))))) :=
  rescale_first_slice_global [some c2d1, some c2d2] 10 [[[2]], [[2]]] [1, 1, 1]
    (except_eq_ok_of_toOption (by decide))

/-- Three decodable slices (positions 1, 2, 3). -/
def c5files : List (Option DicomData) :=
  [some ⟨some 1, [[1]], none, none, none, none⟩,
   some ⟨some 2, [[2]], none, none, none, none⟩,
   some ⟨some 3, [[3]], none, none, none, none⟩]

/-- C5 counterexample: with 3 valid slices and a cap of 2, the stride
is `3 // 2 = 1`, so all 3 slices are kept and the stacked volume has
3 > 2 slices: the slice count can exceed the cap. -/
theorem slice_cap_exceeded :
    (readDicomSeries c5files 2).toOption.map (fun r => r.1.length) = some 3 ∧ 2 < 3 := by
  constructor
  · decide
  · decide

/-- C5 (amended): when the valid slice count exceeds the cap the
loader subsamples with stride `n // cap`; the resulting count can
exceed the cap but is always below twice the cap, and when the count
is at most the cap every valid slice is kept (the volume has exactly
one slice per valid file). -/
theorem slice_cap_subsample (files : List (Option DicomData)) (cap : ℕ)
    (vol : List (List (List ℚ))) (sp : List ℚ)
    (hcap : 1 ≤ cap)
    (h : readDicomSeries files cap = Except.ok (vol, sp)) :
    vol.length < 2 * cap ∧
      ((sortedValid files).length ≤ cap → vol.length = (sortedValid files).length) := by
  obtain ⟨hd, tl, hp, _, hvol⟩ := readDicomSeries_ok_spec h
  have hlen : vol.length = (processedSlices files cap).length := by
    rcases hvol with ⟨_, hvol⟩ | ⟨sl, t, _, _, hvol⟩ <;>
      rw [hvol, hp] <;> simp only [List.length_map]
  rw [hlen]
  rw [processedSlices]
  split
  · next hgt =>
    set n := (sortedValid files).length with hn
    have hs1 : 1 ≤ n / cap := by
      rw [Nat.le_div_iff_mul_le (by omega)]
      omega
    constructor
    · rw [sliceStride_length _ _ hs1, ← hn]
      rw [Nat.div_lt_iff_lt_mul (by omega : 0 < n / cap)]
      have hdm := Nat.div_add_mod n cap
      have hmod : n % cap < cap := Nat.mod_lt _ (by omega)
      generalize hq : n / cap = s at *
      have hkey : cap + s ≤ cap * s + 1 := by
        obtain ⟨t, rfl⟩ : ∃ t, s = t + 1 := ⟨s - 1, by omega⟩
        have h4 : t ≤ cap * t := Nat.le_mul_of_pos_left t (by omega)
        have h5 : cap * (t + 1) = cap * t + cap := by ring
        omega
      have hmul : 2 * cap * s = 2 * (cap * s) := by ring
      rw [hmul]
      omega
    · intro hle
      omega
  · next hle =>
    exact ⟨by omega, fun _ => rfl⟩

theorem slice_cap_subsample_witness :
    ([[[1]], [[2]], [[3]]] : List (List (List ℚ))).length < 2 * 3 ∧
      ((sortedValid c5files).length ≤ 3 →
        ([[[1]], [[2]], [[3]]] : List (List (List ℚ))).length = (sortedValid c5files).length) :=
  slice_cap_subsample c5files 3 [[[1]], [[2]], [[3]]] [1, 1, 1] (by decide)
    (except_eq_ok_of_toOption (by decide))

/-- Skipping a file that fails to decode does not change the result. -/
theorem filterMap_readSingle_filter (files : List (Option DicomData)) :
    (files.filter Option.isSome).filterMap readSingleDicom =
      files.filterMap readSingleDicom := by
  induction files with
  | nil => rfl
  | cons f fs ih =>
    cases f with
    | none => simp [List.filter_cons, List.filterMap_cons, readSingleDicom, ih]
    | some d => simp [List.filter_cons, List.filterMap_cons, readSingleDicom, ih]

/-- A decodable 1x1 slice. -/
def c6dA : DicomData := ⟨some 0, [[1]], none, none, none, none⟩

/-- A decodable 2x1 slice: its `pixel_array` shape differs from
`c6dA`'s. -/
def c6dB : DicomData := ⟨some 1, [[1], [2]], none, none, none, none⟩

/-- A decodable slice carrying `RescaleSlope` but no
`RescaleIntercept`. -/
def c6dS : DicomData := ⟨some 0, [[1]], none, none, some 2, none⟩

/-- C6 counterexample: the load can fail although files decode.  With
two decodable slices of different `pixel_array` shapes, `np.stack` at
line 105 raises `ValueError`; with a single decodable slice whose
dataset has `RescaleSlope` but no `RescaleIntercept`, line 119 raises
`AttributeError`.  In both cases `read_dicom_series` does not return a
volume even though at least one file decoded. -/
theorem load_fails_despite_decodable :
    some c6dA ∈ [some c6dA, some c6dB] ∧
    (readDicomSeries [some c6dA, some c6dB] 10).toOption = none ∧
    some c6dS ∈ [some c6dS] ∧
    (readDicomSeries [some c6dS] 10).toOption = none := by
  refine ⟨by decide, by decide, by decide, by decide⟩

/-- C6 (amended): undecodable files are skipped: the result only
depends on the decodable files, and when no file decodes the load
fails with the no-data `ValueError`.  When at least one file decodes,
the load succeeds provided the kept slices' pixel arrays all share the
first slice's shape (otherwise `np.stack` raises `ValueError`) and the
first sorted slice does not carry `RescaleSlope` without
`RescaleIntercept` (otherwise line 119 raises `AttributeError`). -/
theorem undecodable_files_skipped (files : List (Option DicomData)) (cap : ℕ)
    (hcap : 1 ≤ cap) :
    readDicomSeries files cap = readDicomSeries (files.filter Option.isSome) cap ∧
    ((∃ d, some d ∈ files) → stackable (processedSlices files cap) = true →
      (processedSlices files cap).head?.all (fun hd => !slopeNoIntercept hd.2) = true →
      ∃ out, readDicomSeries files cap = Except.ok out) ∧
    ((∀ f ∈ files, f = none) → readDicomSeries files cap = Except.error "No valid DICOM files") := by
  have hsv : sortedValid (files.filter Option.isSome) = sortedValid files := by
    rw [sortedValid, sortedValid, filterMap_readSingle_filter]
  refine ⟨?_, ?_, ?_⟩
  · simp only [readDicomSeries, processedSlices, hsv]
  · rintro ⟨d, hd⟩ hstack hresc
    have hmem : (d.ipp.getD 0, d) ∈ files.filterMap readSingleDicom := by
      rw [List.mem_filterMap]
      exact ⟨some d, hd, by rw [readSingleDicom, Option.map_some']⟩
    have hne : sortedValid files ≠ [] := by
      intro hnil
      have := (sortByPos_perm (files.filterMap readSingleDicom)).mem_iff.mpr hmem
      rw [sortedValid] at hnil
      rw [hnil] at this
      exact List.not_mem_nil _ this
    have hne2 := @processedSlices_ne_nil files cap hne
    cases hp : processedSlices files cap with
    | nil => exact absurd hp hne2
    | cons hd2 tl =>
      rw [hp] at hstack hresc
      have hok : ∃ out, stackAndScale (hd2 :: tl) = Except.ok out := by
        rw [stackAndScale, if_pos hstack]
        have hresc2 : (!slopeNoIntercept hd2.2) = true := by
          simpa [Option.all] using hresc
        rw [Bool.not_eq_eq_eq_not, Bool.not_true, slopeNoIntercept,
          Bool.and_eq_false_imp] at hresc2
        cases hsl : hd2.2.rescaleSlope with
        | none => exact ⟨_, rfl⟩
        | some sl =>
          have hit := hresc2 (by rw [hsl]; rfl)
          rw [Option.isNone_eq_false_iff, Option.isSome_iff_exists] at hit
          obtain ⟨t, hit2⟩ := hit
          rw [hit2]
          exact ⟨_, rfl⟩
      obtain ⟨out, hout⟩ := hok
      refine ⟨out, ?_⟩
      simp only [readDicomSeries]
      rw [if_neg (by simpa [List.isEmpty_iff] using hne), if_neg (by omega)]
      rw [hp, hout]
  · intro hall
    have hempty : files.filterMap readSingleDicom = [] := by
      rw [List.filterMap_eq_nil]
      intro f hf
      rw [hall f hf]
      rfl
    have hsv2 : sortedValid files = [] := by
      rw [sortedValid, hempty]
      rfl
    simp only [readDicomSeries]
    rw [if_pos (by simp [hsv2])]

theorem undecodable_files_skipped_witness :
    readDicomSeries [none] 1 = Except.error "No valid DICOM files" :=
  (undecodable_files_skipped [none] 1 (by decide)).2.2 (by decide)

/-- C7: the converter enforces the pipeline order and the export
format: `segment` without a loaded volume, `extract_surface` without a
mask and `export` without a mesh raise their respective `ValueError`s
(returning the error leaves the state record untouched), `export`
rejects any format other than `stl` / `obj`, and in-order invocation
raises none of these errors. -/
theorem converter_pipeline_order
    (regionGrow thresholdSeg : List (List (List ℚ)) → List (List (List ℚ)))
    (cleanup : List (List (List ℚ)) → Bool → List (List (List ℚ)))
    (marchingCubes : List (List (List ℚ)) → List ℚ →
      List (ℚ × ℚ × ℚ) × List (ℕ × ℕ × ℕ) × List (ℚ × ℚ × ℚ))
    (method : String) (st : ConverterState) (filename format : String) :
    (st.volume = none →
      st.segment regionGrow thresholdSeg cleanup method = Except.error "Load data first") ∧
    (st.mask = none → st.extractSurface marchingCubes = Except.error "Segment first") ∧
    (st.vertices = none → st.export filename format = Except.error "Extract surface first") ∧
    (st.vertices.isSome = true → strLower format ≠ "stl" → strLower format ≠ "obj" →
      st.export filename format = Except.error ("Unknown format: " ++ format)) ∧
    (st.volume.isSome = true → ∃ st2,
      st.segment regionGrow thresholdSeg cleanup method = Except.ok st2 ∧
        st2.mask.isSome = true ∧ st2.volume = st.volume) ∧
    (st.mask.isSome = true → ∃ st2,
      st.extractSurface marchingCubes = Except.ok st2 ∧ st2.vertices.isSome = true) ∧
    (st.vertices.isSome = true →
      (∃ out, st.export filename "stl" = Except.ok out) ∧
      (∃ out, st.export filename "obj" = Except.ok out)) := by
  refine ⟨?_, ?_, ?_, ?_, ?_, ?_, ?_⟩
  · intro hv
    rw [ConverterState.segment, hv]
  · intro hm
    rw [ConverterState.extractSurface, hm]
  · intro hv
    rw [ConverterState.export, hv]
  · intro hv hstl hobj
    rw [Option.isSome_iff_exists] at hv
    obtain ⟨vs, hvs⟩ := hv
    rw [ConverterState.export, hvs, if_neg hstl, if_neg hobj]
  · intro hv
    rw [Option.isSome_iff_exists] at hv
    obtain ⟨v, hvs⟩ := hv
    refine ⟨{ st with mask := some (cleanup
      (if method = "region_growing" then regionGrow v else thresholdSeg v) st.fastMode) },
      ?_, rfl, by rw [hvs]⟩
    rw [ConverterState.segment, hvs]
  · intro hm
    rw [Option.isSome_iff_exists] at hm
    obtain ⟨m2, hm2⟩ := hm
    refine ⟨{ st with
      vertices := some (marchingCubes m2 (st.spacing.getD [1, 1, 1])).1,
      faces := some (marchingCubes m2 (st.spacing.getD [1, 1, 1])).2.1,
      normals := some (marchingCubes m2 (st.spacing.getD [1, 1, 1])).2.2 }, ?_, rfl⟩
    rw [ConverterState.extractSurface, hm2]
  · intro hv
    rw [Option.isSome_iff_exists] at hv
    obtain ⟨vs, hvs⟩ := hv
    constructor
    · refine ⟨withExt filename ".stl", ?_⟩
      rw [ConverterState.export, hvs]
      rw [if_pos (show strLower "stl" = "stl" by decide)]
    · refine ⟨withExt filename ".obj", ?_⟩
      rw [ConverterState.export, hvs]
      rw [if_neg (show ¬ strLower "obj" = "stl" by decide),
        if_pos (show strLower "obj" = "obj" by decide)]

theorem converter_pipeline_order_witness :
    (ConverterState.init true).segment id id (fun m2 _ => m2) "otsu" =
      Except.error "Load data first" ∧
    (ConverterState.init true).export "model" "stl" = Except.error "Extract surface first" :=
  ⟨(converter_pipeline_order id id (fun m2 _ => m2) (fun m2 _ => ([], [], []))
      "otsu" (ConverterState.init true) "model" "stl").1 rfl,
   (converter_pipeline_order id id (fun m2 _ => m2) (fun m2 _ => ([], [], []))
      "otsu" (ConverterState.init true) "model" "stl").2.2.1 rfl⟩

/-- The post-morphology mask of the C3 failing input: one foreground
voxel at `(0,0,0)` in a 1×1×2 array; `(0,0,1)` is background. -/
def c3mask : Pos3 → Bool := fun p => decide (p = ((0, 0, 0) : Pos3))

/-- C3 failing input, `remove_small = 1`: the single component
`{(0,0,0)}` has size 1 ≥ 1 and is kept — but the background voxel
`(0,0,1)`, whose label 0 is sent by `(labeled - 1).clip(0)` to entry 0
of `mask_sizes` (the keep flag of component 1), also comes back as 1.
The claim (and the code's own `# Keep only large objects` comment)
require background to stay 0. -/
theorem cleanup_prune_background_bug :
    c3mask (0, 0, 1) = false ∧
    (morphPrune (1, 1, 2) c3mask 1).map (fun f => f (0, 0, 1)) = some true ∧
    (morphPrune (1, 1, 2) c3mask 1).map (fun f => f (0, 0, 0)) = some true := by
  refine ⟨by decide, by decide, by decide⟩

/-- The C4 volume: voxels `(0,0,0)` and `(1,1,1)` have intensity 100,
the rest 1000. -/
def c4val : Pos3 → ℚ := fun p =>
  if p = ((0, 0, 0) : Pos3) ∨ p = ((1, 1, 1) : Pos3) then 100 else 1000

/-- C4 counterexample: in a 2×2×2 volume the default seed is
`(1,1,1)`; the voxel `(0,0,0)` is within tolerance of the seed value
and diagonally (26-)adjacent to the seed, so the claim's
26-connectivity mask contains it, but `fast_region_growing` excludes
it: `ndimage.label`'s default structure is 6-connectivity. -/
theorem region_growing_not_26connected :
    adj26 (0, 0, 0) (1, 1, 1) = true ∧
    seedOf (2, 2, 2) none = (1, 1, 1) ∧
    simOk (2, 2, 2) c4val none 50 (0, 0, 0) = true ∧
    fastRegionGrowing (2, 2, 2) c4val none 50 (0, 0, 0) = false := by
  refine ⟨by decide, by decide, by decide, by decide⟩

/-- C4 (amended): for a nonnegative tolerance and an in-bounds seed
(default: the geometric centre `shape // 2`), `fast_region_growing`
returns exactly the voxels that are within tolerance of the seed value
and 6-connected (face adjacency, `ndimage.label`'s default structure)
to the seed through in-tolerance voxels. -/
theorem region_growing_component (dims : Pos3) (val : Pos3 → ℚ) (seedOpt : Option Pos3)
    (tol : ℚ) (p : Pos3) (htol : 0 ≤ tol)
    (hseed : inBounds3 dims (seedOf dims seedOpt) = true) :
    fastRegionGrowing dims val seedOpt tol p = true ↔
      (simOk dims val seedOpt tol p = true ∧
        Reaches (simOk dims val seedOpt tol) dims (seedOf dims seedOpt) p) := by
  have hokseed : simOk dims val seedOpt tol (seedOf dims seedOpt) = true := by
    rw [simOk]
    simp only [sub_self, abs_zero, decide_eq_true_eq]
    exact htol
  rw [fastRegionGrowing]
  rw [Bool.and_eq_true, beq_iff_eq]
  rw [labelOf3_eq_seed_iff hseed hokseed p]
  constructor
  · rintro ⟨_, hr⟩
    exact ⟨(reaches_ok hr).2, hr⟩
  · rintro ⟨_, hr⟩
    exact ⟨(reaches_ok hr).1, hr⟩

theorem region_growing_component_witness :
    (0 : ℚ) ≤ 50 ∧ inBounds3 (1, 1, 1) (seedOf (1, 1, 1) none) = true ∧
      (fastRegionGrowing (1, 1, 1) (fun _ => 7) none 50 (0, 0, 0) = true ↔
        (simOk (1, 1, 1) (fun _ => 7) none 50 (0, 0, 0) = true ∧
          Reaches (simOk (1, 1, 1) (fun _ => 7) none 50) (1, 1, 1)
            (seedOf (1, 1, 1) none) (0, 0, 0))) :=
  ⟨by decide, by decide,
    region_growing_component (1, 1, 1) (fun _ => 7) none 50 (0, 0, 0) (by decide) (by decide)⟩

/-- C8 (amended): exporting any mesh with valid face indices and
re-parsing the bytes with the preview parser yields
`min(face count, 100000)` triangles (the parser caps at 100000); for
each parsed triangle, every vertex is the float32 bit pattern of the
corresponding source vertex. -/
theorem stl_export_parse_roundtrip (f32 : ℚ → ℕ) (nb : TriQ → ℕ × ℕ × ℕ) (m : MeshQ)
    (hf : ∀ q, f32 q < 4294967296)
    (hface : ∀ f ∈ m.faces, f.1 < m.vertices.length ∧ f.2.1 < m.vertices.length ∧
      f.2.2 < m.vertices.length)
    (hcount : m.faces.length < 4294967296) :
    ∃ bs tris, exportSTL f32 nb m = some bs ∧ parseSTL bs = some tris ∧
      tris.length = min m.faces.length 100000 ∧
      ∀ i fi, m.faces.get? i = some fi → i < 100000 →
        tris.get? i = some (pix f32 (m.vertices.getD fi.1 (0, 0, 0)),
          pix f32 (m.vertices.getD fi.2.1 (0, 0, 0)),
          pix f32 (m.vertices.getD fi.2.2 (0, 0, 0))) := by
  obtain ⟨bs, h1, h2⟩ := stl_roundtrip f32 nb m hf hface hcount
  refine ⟨bs, _, h1, h2, ?_, ?_⟩
  · rw [List.length_map, List.length_take]
    omega
  · intro i fi hfi hi
    have hilt : i < m.faces.length := (List.get?_eq_some.mp hfi).1
    rw [List.get?_map]
    rw [List.get?_take (by omega : i < min m.faces.length 100000)]
    rw [hfi]
    rfl

/-- A one-triangle mesh. -/
def miniMesh : MeshQ := ⟨[(0, 0, 0)], [(0, 0, 0)]⟩

theorem stl_export_parse_roundtrip_witness :
    ∃ bs tris, exportSTL (fun _ => 0) (fun _ => (0, 0, 0)) miniMesh = some bs ∧
      parseSTL bs = some tris ∧ tris.length = min miniMesh.faces.length 100000 ∧
      ∀ i fi, miniMesh.faces.get? i = some fi → i < 100000 →
        tris.get? i = some (pix (fun _ => 0) (miniMesh.vertices.getD fi.1 (0, 0, 0)),
          pix (fun _ => 0) (miniMesh.vertices.getD fi.2.1 (0, 0, 0)),
          pix (fun _ => 0) (miniMesh.vertices.getD fi.2.2 (0, 0, 0))) :=
  stl_export_parse_roundtrip (fun _ => 0) (fun _ => (0, 0, 0)) miniMesh
    (fun _ => by norm_num) (by decide) (by decide)

/-- A mesh with more faces than the preview parser's 100000-triangle
cap. -/
def bigMesh : MeshQ := ⟨[(0, 0, 0)], List.replicate 100001 (0, 0, 0)⟩

/-- C8 counterexample: for a mesh of 100001 faces the preview parser
stops after 100000 records, so the parsed triangle count is not the
face count. -/
theorem stl_parse_truncates :
    ∃ bs tris, exportSTL (fun _ => 0) (fun _ => (0, 0, 0)) bigMesh = some bs ∧
      parseSTL bs = some tris ∧ bigMesh.faces.length = 100001 ∧
      tris.length = 100000 ∧ tris.length ≠ bigMesh.faces.length := by
  have hface : ∀ f ∈ bigMesh.faces, f.1 < bigMesh.vertices.length ∧
      f.2.1 < bigMesh.vertices.length ∧ f.2.2 < bigMesh.vertices.length := by
    intro f hf
    have hf2 : f = (0, 0, 0) := List.eq_of_mem_replicate hf
    subst hf2
    exact ⟨by decide, by decide, by decide⟩
  have hlen : bigMesh.faces.length = 100001 := List.length_replicate _ _
  obtain ⟨bs, h1, h2⟩ := stl_roundtrip (fun _ => 0) (fun _ => (0, 0, 0)) bigMesh
    (fun _ => by norm_num) hface (by rw [hlen]; norm_num)
  refine ⟨bs, _, h1, h2, hlen, ?_, ?_⟩
  · rw [List.length_map, List.length_take, hlen]
    omega
  · rw [List.length_map, List.length_take, hlen]
    omega

/-- C9: the normal written by `export_stl` never divides by zero: a
triangle with vanishing cross product gets the zero normal (the guard
substitutes divisor 1), and any other triangle gets the cross product
of its edges divided by its Euclidean norm. -/
theorem stl_normal_guard (v0 v1 v2 : V3) :
    stlNormal v0 v1 v2 =
      if cross3 (vsub v1 v0) (vsub v2 v0) = ((0 : ℝ), (0 : ℝ), (0 : ℝ)) then
        ((0 : ℝ), (0 : ℝ), (0 : ℝ))
      else
        ((cross3 (vsub v1 v0) (vsub v2 v0)).1 / enorm3 (cross3 (vsub v1 v0) (vsub v2 v0)),
         (cross3 (vsub v1 v0) (vsub v2 v0)).2.1 / enorm3 (cross3 (vsub v1 v0) (vsub v2 v0)),
         (cross3 (vsub v1 v0) (vsub v2 v0)).2.2 / enorm3 (cross3 (vsub v1 v0) (vsub v2 v0))) := by
  by_cases h : cross3 (vsub v1 v0) (vsub v2 v0) = ((0 : ℝ), (0 : ℝ), (0 : ℝ))
  · rw [if_pos h]
    simp only [stlNormal]
    rw [h]
    norm_num [enorm3, normSq3]
  · rw [if_neg h]
    have hnorm : enorm3 (cross3 (vsub v1 v0) (vsub v2 v0)) ≠ 0 := fun h0 =>
      h ((enorm3_eq_zero_iff _).mp h0)
    simp only [stlNormal]
    rw [if_neg hnorm]

end ConcreteEvaluation

end Medical3D
